import Mathlib

set_option autoImplicit false

/-!
A shallow embedding of the causal-metadata core of the `clock` repository:
the version-vector / dot algebra of `src/src/dvv.rs`, the strict
happened-before comparator of `src/src/vclock.rs`, and the sibling-resolving
key-value layer of `src/examples/kv.rs`.

The Rust `HashMap<String, i64>` carried by both `VersionVector` (dvv.rs) and
`VectorClock` (vclock.rs) — the two types have the identical field
`vector: HashMap<String, i64>` and textually identical `increment` and
`merge` bodies — is embedded as an association list `List (String × Int)`.
Every read of the map goes through the absent-means-zero lookup both sources
use (`match self.vector.get(k) { None => 0, Some(v) => *v }`). The Rust
HashSet of keys produced by `all_keys` is unordered; it is embedded as the
first-occurrence deduplication of the appended key lists, and map equality
(HashMap `==`: same key set, same value per key) as `vvEq` below.
-/

/-- The actor-to-counter mapping `vector: HashMap<String, i64>` shared by
`VersionVector` (src/src/dvv.rs, lines 4-7) and `VectorClock`
(src/src/vclock.rs, lines 4-7). -/
structure VersionVector where
  vector : List (String × Int)
deriving DecidableEq

/-- The tuple struct `Dot(String, i64)` of src/src/dvv.rs line 9: a single
causal event, an actor paired with a counter. -/
structure Dot where
  node : String
  counter : Int
deriving DecidableEq

/-- Absent-means-zero lookup on the underlying association list:
`match m.get(k) { None => 0, Some(v) => *v }`. -/
def getL : List (String × Int) → String → Int
  | [], _ => 0
  | (k, c) :: rest, n => if n = k then c else getL rest n

/-- The counter a context holds for an actor, 0 when the actor is absent. -/
def VersionVector.getC (v : VersionVector) (n : String) : Int :=
  getL v.vector n

/-- `VersionVector::new` / `VectorClock::new`: the empty mapping. -/
def VersionVector.new : VersionVector := ⟨[]⟩

/-- The list-level body of `increment`: bump the entry of `n` if present,
else insert it with counter 1 (`entry(..).and_modify(|e| *e += 1).or_insert(1)`). -/
def incL : List (String × Int) → String → List (String × Int)
  | [], n => [(n, 1)]
  | (k, c) :: rest, n => if k = n then (k, c + 1) :: rest else (k, c) :: incL rest n

/-- `VersionVector::increment` (src/src/dvv.rs lines 18-21), identical to
`VectorClock::increment` (src/src/vclock.rs lines 16-22); `kv.rs` calls it
under the name `inc`. -/
def VersionVector.increment (v : VersionVector) (n : String) : VersionVector :=
  ⟨incL v.vector n⟩

/-- The key list of a context (the mapping's key set). -/
def VersionVector.keys (v : VersionVector) : List String :=
  v.vector.map Prod.fst

/-- `all_keys(&[self.vector, w.vector])` (src/src/dvv.rs lines 88-97,
src/src/vclock.rs lines 80-89): the set of actors present in either mapping. -/
def allKeys (a b : VersionVector) : List String :=
  (a.keys ++ b.keys).dedup

/-- `VersionVector::descends` (src/src/dvv.rs lines 23-41): true unless some
actor of either mapping has a strictly smaller counter in `v` than in `w`. -/
def VersionVector.descends (v w : VersionVector) : Bool :=
  (allKeys v w).all fun k => decide (w.getC k ≤ v.getC k)

/-- `VersionVector::concurrent` (src/src/dvv.rs lines 43-46). -/
def VersionVector.concurrent (v w : VersionVector) : Bool :=
  !(v.descends w || w.descends v)

/-- `VersionVector::descends_dot` (src/src/dvv.rs lines 48-54): the context
contains the dot, `v[w.node] >= w.counter`. -/
def VersionVector.descends_dot (v : VersionVector) (w : Dot) : Bool :=
  decide (w.counter ≤ v.getC w.node)

/-- `VersionVector::merge` (src/src/dvv.rs lines 57-78), identical to
`VectorClock::merge` (src/src/vclock.rs lines 59-78): pointwise max over the
union of the key sets. -/
def VersionVector.merge (v w : VersionVector) : VersionVector :=
  ⟨(allKeys v w).map fun k => (k, max (v.getC k) (w.getC k))⟩

/-- `VersionVector::get_dot` (src/src/dvv.rs lines 80-86): the dot of an
actor at the context's current counter for it. -/
def VersionVector.get_dot (v : VersionVector) (n : String) : Dot :=
  ⟨n, v.getC n⟩

/-- `Dot::descends_vv` (src/src/dvv.rs lines 101-110):
`self.counter >= w[self.node]`. -/
def Dot.descends_vv (d : Dot) (w : VersionVector) : Bool :=
  decide (w.getC d.node ≤ d.counter)

/-- The loop body of `VectorClock::happened_before` (src/src/vclock.rs lines
24-52): return false at the first key where `v`'s counter exceeds `w`'s,
otherwise count the strictly smaller keys in `sc` and finish with `sc > 0`. -/
def hbGo (a b : VersionVector) : List String → Nat → Bool
  | [], sc => decide (0 < sc)
  | k :: ks, sc =>
    if b.getC k < a.getC k then false
    else if a.getC k < b.getC k then hbGo a b ks (sc + 1)
    else hbGo a b ks sc

/-- `VectorClock::happened_before` (src/src/vclock.rs lines 24-52), run over
the union of the key sets. -/
def VectorClock.happened_before (v w : VersionVector) : Bool :=
  hbGo v w (allKeys v w) 0

/-- `VectorClock::concurrent` (src/src/vclock.rs lines 54-56). -/
def VectorClock.concurrent (v w : VersionVector) : Bool :=
  !(VectorClock.happened_before v w || VectorClock.happened_before w v)

/-- HashMap equality of two contexts: same key set and the same counter for
every actor (Rust `HashMap::eq`). -/
def vvEq (a b : VersionVector) : Prop :=
  a.keys.toFinset = b.keys.toFinset ∧ ∀ k, a.getC k = b.getC k

/-- The `Value` record of src/examples/kv.rs lines 6-10: an i64 payload plus
the dot of the write that produced it. -/
structure Value where
  val : Int
  dot : Dot
deriving DecidableEq

/-- Modelled from the spec: `Dot::descends(&self, w: &Dot)` is called by
`KVStore::merge_siblings` (src/examples/kv.rs line 65) on the library crate's
`Dot`, but no method of that name appears in the library source file
src/src/dvv.rs. Per the spec's end-to-end scenario (§8: B's new value's dot
`(B,1)` "does not dominate" A's `(A,1)` and both siblings remain; B's later
dot does not dominate C's dot because it is a "different, unrelated branch")
and the sibling-count assertions of `main` in src/examples/kv.rs, one dot
dominates another exactly when both name the same actor and the first's
counter is at least the second's. -/
def Dot.descends (d w : Dot) : Bool :=
  d.node == w.node && decide (w.counter ≤ d.counter)

/-- The `KVStore` of src/examples/kv.rs lines 12-16: a key-to-sibling-set
mapping plus one global causal context `vv`. -/
structure KVStore where
  store : List (String × List Value)
  vv : VersionVector
deriving DecidableEq

/-- `KVStore::new` (src/examples/kv.rs lines 19-24). -/
def KVStore.new : KVStore :=
  ⟨[], VersionVector.new⟩

/-- `self.store.get(key)` on the embedded association-list store. -/
def getS : List (String × List Value) → String → Option (List Value)
  | [], _ => none
  | (k, vs) :: rest, n => if n = k then some vs else getS rest n

/-- `self.store.insert(key, values)`: replace the entry of `key` if present,
else add it. -/
def insertS : List (String × List Value) → String → List Value → List (String × List Value)
  | [], k, vs => [(k, vs)]
  | (k2, vs2) :: rest, k, vs =>
    if k2 = k then (k2, vs) :: rest else (k2, vs2) :: insertS rest k vs

/-- `KVStore::get` (src/examples/kv.rs lines 26-31): the stored siblings (if
any) together with a snapshot of the global context. -/
def KVStore.get (s : KVStore) (key : String) : Option (List Value) × VersionVector :=
  (getS s.store key, s.vv)

/-- `KVStore::merge_siblings` (src/examples/kv.rs lines 53-75): drop every
existing sibling dominated by the new value's dot, then append the new
value; on an absent key just store the new value alone. -/
def KVStore.merge_siblings (s : KVStore) (key : String) (new_val : Value) : KVStore :=
  match getS s.store key with
  | none => ⟨insertS s.store key [new_val], s.vv⟩
  | some values =>
      ⟨insertS s.store key
        ((values.filter fun v => !(new_val.dot.descends v.dot)) ++ [new_val]), s.vv⟩

/-- `KVStore::set` (src/examples/kv.rs lines 33-51): fast path when the
supplied context descends the store's global context (increment, single
fresh value replaces the sibling set), slow path otherwise (merge then
increment into `frontier`, reconcile via `merge_siblings`). -/
def KVStore.set (s : KVStore) (client_id : String) (context : VersionVector)
    (key : String) (val : Int) : KVStore :=
  if context.descends s.vv then
    let vv2 := s.vv.increment client_id
    let dot := vv2.get_dot client_id
    ⟨insertS s.store key [⟨val, dot⟩], vv2⟩
  else
    let frontier := (s.vv.merge context).increment client_id
    let dot := frontier.get_dot client_id
    KVStore.merge_siblings ⟨s.store, frontier⟩ key ⟨val, dot⟩

/-- The sibling set stored for a key, empty when the key is absent. -/
def KVStore.siblings (s : KVStore) (key : String) : List Value :=
  (getS s.store key).getD []

/-- One write request as `main` issues them: actor, claimed context, key,
payload. -/
def Op : Type := String × VersionVector × String × Int

/-- Apply one write to a store. -/
def applyOp (s : KVStore) (op : Op) : KVStore :=
  s.set op.1 op.2.1 op.2.2.1 op.2.2.2

/-- The store reached from the empty store by a sequence of writes. -/
def run (ops : List Op) : KVStore :=
  List.foldl applyOp KVStore.new ops

/-- The literal scenario of `main` (src/examples/kv.rs lines 78-112): the
empty store. -/
def kv0 : KVStore := KVStore.new

/-- Context snapshot client A reads from the empty store. -/
def ctx_a : VersionVector := (kv0.get "x").2

/-- Context snapshot client B reads from the empty store. -/
def ctx_b : VersionVector := (kv0.get "x").2

/-- State after A writes `("A", ctx_a, "x", 10)`. -/
def kv1 : KVStore := kv0.set "A" ctx_a "x" 10

/-- State after B writes `("B", ctx_b, "x", 15)`. -/
def kv2 : KVStore := kv1.set "B" ctx_b "x" 15

/-- Context snapshot client C reads after the two writes. -/
def ctx_c : VersionVector := (kv2.get "x").2

/-- State after C writes `("C", ctx_c, "x", 20)`. -/
def kv3 : KVStore := kv2.set "C" ctx_c "x" 20

/-- State after B writes again with its stale empty context. -/
def kv4 : KVStore := kv3.set "B" ctx_b "x" 30

/-! ## Lemmas about the context algebra -/

theorem getL_eq_zero {l : List (String × Int)} {k : String}
    (h : k ∉ l.map Prod.fst) : getL l k = 0 := by
  induction l with
  | nil => rfl
  | cons p rest ih =>
    obtain ⟨a, c⟩ := p
    simp only [List.map_cons, List.mem_cons, not_or] at h
    simp only [getL, if_neg h.1]
    exact ih h.2

theorem getC_eq_zero {v : VersionVector} {k : String}
    (h : k ∉ v.keys) : v.getC k = 0 :=
  getL_eq_zero h

theorem mem_allKeys {a b : VersionVector} {k : String} :
    k ∈ allKeys a b ↔ k ∈ a.keys ∨ k ∈ b.keys := by
  simp [allKeys, List.mem_dedup, List.mem_append]

theorem getL_map_pair (f : String → Int) (l : List String) (k : String) :
    getL (l.map fun x => (x, f x)) k = if k ∈ l then f k else 0 := by
  induction l with
  | nil => simp [getL]
  | cons a t ih =>
    by_cases hk : k = a
    · subst hk; simp [getL]
    · simp [getL, hk, ih, List.mem_cons]

theorem getC_merge (a b : VersionVector) (k : String) :
    (a.merge b).getC k = max (a.getC k) (b.getC k) := by
  have hrfl : (a.merge b).getC k =
      getL ((allKeys a b).map fun x => (x, max (a.getC x) (b.getC x))) k := rfl
  rw [hrfl, getL_map_pair]
  by_cases h : k ∈ allKeys a b
  · simp [h]
  · have h2 := mem_allKeys.not.mp h
    push_neg at h2
    simp [h, getC_eq_zero h2.1, getC_eq_zero h2.2]

theorem keys_merge (a b : VersionVector) : (a.merge b).keys = allKeys a b := by
  show List.map Prod.fst ((allKeys a b).map fun k => (k, max (a.getC k) (b.getC k)))
      = allKeys a b
  rw [List.map_map]
  show List.map id (allKeys a b) = allKeys a b
  exact List.map_id _

theorem getL_incL (l : List (String × Int)) (n k : String) :
    getL (incL l n) k = if k = n then getL l n + 1 else getL l k := by
  induction l with
  | nil =>
    simp only [incL, getL]
    split <;> rfl
  | cons p rest ih =>
    obtain ⟨a, c⟩ := p
    by_cases han : a = n
    · subst han
      by_cases hk : k = a <;> simp [incL, getL, hk]
    · by_cases hk : k = a
      · subst hk
        have hkn : ¬k = n := han
        simp [incL, han, getL, hkn]
      · have hna : ¬n = a := fun h => han h.symm
        simp [incL, han, getL, hk, ih, hna]

theorem getC_increment (v : VersionVector) (n k : String) :
    (v.increment n).getC k = if k = n then v.getC n + 1 else v.getC k :=
  getL_incL v.vector n k

theorem getC_increment_self (v : VersionVector) (n : String) :
    (v.increment n).getC n = v.getC n + 1 := by
  rw [getC_increment, if_pos rfl]

theorem getC_le_increment (v : VersionVector) (n k : String) :
    v.getC k ≤ (v.increment n).getC k := by
  rw [getC_increment]
  split
  · next h => subst h; omega
  · exact le_refl _

theorem descends_iff {a b : VersionVector} :
    a.descends b = true ↔ ∀ k, b.getC k ≤ a.getC k := by
  unfold VersionVector.descends
  rw [List.all_eq_true]
  constructor
  · intro h k
    by_cases hk : k ∈ allKeys a b
    · simpa using h k hk
    · have h2 := mem_allKeys.not.mp hk
      push_neg at h2
      rw [getC_eq_zero h2.1, getC_eq_zero h2.2]
  · intro h k _
    simpa using h k

theorem descends_refl (a : VersionVector) : a.descends a = true :=
  descends_iff.mpr fun _ => le_refl _

theorem hbGo_iff (a b : VersionVector) (l : List String) (sc : Nat) :
    hbGo a b l sc = true ↔
      ((∀ k ∈ l, a.getC k ≤ b.getC k) ∧
        (0 < sc ∨ ∃ k ∈ l, a.getC k < b.getC k)) := by
  induction l generalizing sc with
  | nil => simp [hbGo]
  | cons k ks ih =>
    by_cases h1 : b.getC k < a.getC k
    · simp only [hbGo, if_pos h1]
      constructor
      · intro h; exact absurd h (by simp)
      · rintro ⟨hall, _⟩
        exact absurd (hall k (List.mem_cons_self k ks)) (not_le.mpr h1)
    · by_cases h2 : a.getC k < b.getC k
      · simp only [hbGo, if_neg h1, if_pos h2, ih]
        constructor
        · rintro ⟨hall, _⟩
          refine ⟨?_, Or.inr ⟨k, List.mem_cons_self k ks, h2⟩⟩
          intro k2 hk2
          rcases List.mem_cons.mp hk2 with h | h
          · subst h; exact le_of_lt h2
          · exact hall k2 h
        · rintro ⟨hall, _⟩
          exact ⟨fun k2 hk2 => hall k2 (List.mem_cons_of_mem k hk2), by omega⟩
      · have heq : a.getC k = b.getC k := le_antisymm (not_lt.mp h1) (not_lt.mp h2)
        simp only [hbGo, if_neg h1, if_neg h2, ih]
        constructor
        · rintro ⟨hall, hsc⟩
          refine ⟨?_, ?_⟩
          · intro k2 hk2
            rcases List.mem_cons.mp hk2 with h | h
            · subst h; exact le_of_eq heq
            · exact hall k2 h
          · rcases hsc with h | ⟨k2, hk2, hlt⟩
            · exact Or.inl h
            · exact Or.inr ⟨k2, List.mem_cons_of_mem k hk2, hlt⟩
        · rintro ⟨hall, hsc⟩
          refine ⟨fun k2 hk2 => hall k2 (List.mem_cons_of_mem k hk2), ?_⟩
          rcases hsc with h | ⟨k2, hk2, hlt⟩
          · exact Or.inl h
          · rcases List.mem_cons.mp hk2 with h | h
            · subst h; exact absurd hlt (by omega)
            · exact Or.inr ⟨k2, h, hlt⟩

theorem happened_before_iff {a b : VersionVector} :
    VectorClock.happened_before a b = true ↔
      ((∀ k, a.getC k ≤ b.getC k) ∧ ∃ k, a.getC k < b.getC k) := by
  unfold VectorClock.happened_before
  rw [hbGo_iff]
  simp only [Nat.lt_irrefl, false_or]
  constructor
  · rintro ⟨hall, k, hk, hlt⟩
    refine ⟨?_, ⟨k, hlt⟩⟩
    intro k2
    by_cases hk2 : k2 ∈ allKeys a b
    · exact hall k2 hk2
    · have h2 := mem_allKeys.not.mp hk2
      push_neg at h2
      rw [getC_eq_zero h2.1, getC_eq_zero h2.2]
  · rintro ⟨hall, k, hlt⟩
    refine ⟨fun k2 _ => hall k2, ⟨k, ?_, hlt⟩⟩
    by_contra hk
    have h2 := mem_allKeys.not.mp hk
    push_neg at h2
    rw [getC_eq_zero h2.1, getC_eq_zero h2.2] at hlt
    exact lt_irrefl _ hlt

theorem happened_before_irrefl (a : VersionVector) :
    VectorClock.happened_before a a = false := by
  cases h : VectorClock.happened_before a a with
  | false => rfl
  | true =>
    obtain ⟨_, k, hk⟩ := happened_before_iff.mp h
    exact absurd hk (lt_irrefl _)

/-! ## Lemmas about the store layer and the reachable-state invariant -/

theorem getS_insertS_self (st : List (String × List Value)) (k : String)
    (vs : List Value) : getS (insertS st k vs) k = some vs := by
  induction st with
  | nil => simp [insertS, getS]
  | cons p rest ih =>
    obtain ⟨k2, vs2⟩ := p
    by_cases h : k2 = k
    · subst h; simp [insertS, getS]
    · have h2 : ¬k = k2 := fun hh => h hh.symm
      simp [insertS, h, getS, h2, ih]

theorem getS_insertS_ne (st : List (String × List Value)) {k n : String}
    (vs : List Value) (h : n ≠ k) : getS (insertS st k vs) n = getS st n := by
  induction st with
  | nil => simp [insertS, getS, h]
  | cons p rest ih =>
    obtain ⟨k2, vs2⟩ := p
    by_cases h2 : k2 = k
    · subst h2
      simp [insertS, getS, h, ih]
    · simp only [insertS, if_neg h2, getS]
      split
      · rfl
      · exact ih

theorem set_fast (s : KVStore) (c : String) (ctx : VersionVector) (key : String)
    (val : Int) (h : ctx.descends s.vv = true) :
    s.set c ctx key val =
      ⟨insertS s.store key [⟨val, (s.vv.increment c).get_dot c⟩], s.vv.increment c⟩ := by
  simp [KVStore.set, h]

theorem set_slow (s : KVStore) (c : String) (ctx : VersionVector) (key : String)
    (val : Int) (h : ctx.descends s.vv = false) :
    s.set c ctx key val =
      KVStore.merge_siblings ⟨s.store, (s.vv.merge ctx).increment c⟩ key
        ⟨val, ((s.vv.merge ctx).increment c).get_dot c⟩ := by
  simp [KVStore.set, h]

theorem merge_siblings_vv (s : KVStore) (key : String) (nv : Value) :
    (s.merge_siblings key nv).vv = s.vv := by
  unfold KVStore.merge_siblings
  cases getS s.store key <;> rfl

theorem siblings_merge_siblings_self (s : KVStore) (key : String) (nv : Value) :
    (s.merge_siblings key nv).siblings key =
      ((s.siblings key).filter fun v => !(nv.dot.descends v.dot)) ++ [nv] := by
  unfold KVStore.merge_siblings KVStore.siblings
  cases h : getS s.store key with
  | none => simp [h, getS_insertS_self]
  | some values => simp [h, getS_insertS_self]

theorem siblings_merge_siblings_ne (s : KVStore) {key key2 : String} (nv : Value)
    (h : key2 ≠ key) :
    (s.merge_siblings key nv).siblings key2 = s.siblings key2 := by
  unfold KVStore.merge_siblings KVStore.siblings
  cases h2 : getS s.store key <;> simp [getS_insertS_ne _ _ h]

theorem frontier_getC_self (a b : VersionVector) (n : String) :
    ((a.merge b).increment n).getC n = max (a.getC n) (b.getC n) + 1 := by
  rw [getC_increment_self, getC_merge]

theorem set_vv_getC_le (s : KVStore) (c : String) (ctx : VersionVector)
    (key : String) (val : Int) (k : String) :
    s.vv.getC k ≤ (s.set c ctx key val).vv.getC k := by
  cases h : ctx.descends s.vv with
  | true =>
    rw [set_fast s c ctx key val h]
    exact getC_le_increment _ _ _
  | false =>
    rw [set_slow s c ctx key val h, merge_siblings_vv]
    calc s.vv.getC k ≤ (s.vv.merge ctx).getC k := by
          rw [getC_merge]; exact le_max_left _ _
      _ ≤ ((s.vv.merge ctx).increment c).getC k := getC_le_increment _ _ _

theorem siblings_set_ne (s : KVStore) (c : String) (ctx : VersionVector)
    (key : String) (val : Int) {key2 : String} (hk : key2 ≠ key) :
    (s.set c ctx key val).siblings key2 = s.siblings key2 := by
  cases h : ctx.descends s.vv with
  | true =>
    rw [set_fast s c ctx key val h]
    simp [KVStore.siblings, getS_insertS_ne _ _ hk]
  | false =>
    rw [set_slow s c ctx key val h, siblings_merge_siblings_ne _ _ hk]
    rfl

/-- Containment of a stored value's dot in a context: the invariant the spec
states for dots, `V[n] >= c` for a dot `(n, c)`. -/
def Contained (vv : VersionVector) (v : Value) : Prop :=
  v.dot.counter ≤ vv.getC v.dot.node

theorem contained_mono {vv vv2 : VersionVector} {v : Value}
    (h : ∀ k, vv.getC k ≤ vv2.getC k) (hc : Contained vv v) : Contained vv2 v :=
  le_trans hc (h _)

/-- The inductive invariant of reachable stores: every stored dot is
contained in the global context, and the siblings of each key name pairwise
distinct actors. -/
def StoreInv (s : KVStore) : Prop :=
  ∀ key, (∀ v ∈ s.siblings key, Contained s.vv v) ∧
    (s.siblings key).Pairwise fun v w => v.dot.node ≠ w.dot.node

theorem storeInv_new : StoreInv KVStore.new := by
  intro key
  constructor
  · intro v hv
    simp [KVStore.siblings, KVStore.new, getS] at hv
  · simp [KVStore.siblings, KVStore.new, getS]

theorem storeInv_set (s : KVStore) (c : String) (ctx : VersionVector) (key : String)
    (val : Int) (hs : StoreInv s) : StoreInv (s.set c ctx key val) := by
  intro key2
  have hvvle : ∀ k, s.vv.getC k ≤ (s.set c ctx key val).vv.getC k :=
    set_vv_getC_le s c ctx key val
  by_cases hk : key2 = key
  case neg =>
    rw [siblings_set_ne s c ctx key val hk]
    exact ⟨fun v hv => contained_mono hvvle ((hs key2).1 v hv), (hs key2).2⟩
  case pos =>
  subst hk
  cases h : ctx.descends s.vv with
  | true =>
    have hsib : (s.set c ctx key2 val).siblings key2 =
        [⟨val, (s.vv.increment c).get_dot c⟩] := by
      rw [set_fast s c ctx key2 val h]
      simp [KVStore.siblings, getS_insertS_self]
    have hvv : (s.set c ctx key2 val).vv = s.vv.increment c := by
      rw [set_fast s c ctx key2 val h]
    rw [hsib, hvv]
    constructor
    · intro v hv
      rw [List.mem_singleton] at hv
      subst hv
      simp [Contained, VersionVector.get_dot]
    · simp
  | false =>
    have hsib : (s.set c ctx key2 val).siblings key2 =
        ((s.siblings key2).filter
          fun v => !((((s.vv.merge ctx).increment c).get_dot c).descends v.dot))
        ++ [⟨val, ((s.vv.merge ctx).increment c).get_dot c⟩] := by
      rw [set_slow s c ctx key2 val h, siblings_merge_siblings_self]
      rfl
    have hvv : (s.set c ctx key2 val).vv = (s.vv.merge ctx).increment c := by
      rw [set_slow s c ctx key2 val h, merge_siblings_vv]
    rw [hsib, hvv]
    have hfc : ((s.vv.merge ctx).increment c).getC c =
        max (s.vv.getC c) (ctx.getC c) + 1 := frontier_getC_self _ _ _
    have hmono : ∀ k, s.vv.getC k ≤ ((s.vv.merge ctx).increment c).getC k :=
      fun k => le_trans (by rw [getC_merge]; exact le_max_left _ _)
        (getC_le_increment _ _ k)
    constructor
    · intro v hv
      rcases List.mem_append.mp hv with hv | hv
      · exact contained_mono hmono ((hs key2).1 v (List.mem_of_mem_filter hv))
      · rw [List.mem_singleton] at hv
        subst hv
        simp [Contained, VersionVector.get_dot]
    · rw [List.pairwise_append]
      refine ⟨List.Pairwise.sublist (List.filter_sublist _) (hs key2).2, by simp, ?_⟩
      intro v hv w hw
      rw [List.mem_singleton] at hw
      subst hw
      show v.dot.node ≠ c
      intro hnode
      have hkeep := List.of_mem_filter hv
      have hcont := (hs key2).1 v (List.mem_of_mem_filter hv)
      have hd : (((s.vv.merge ctx).increment c).get_dot c).descends v.dot = false := by
        simpa using hkeep
      simp [Dot.descends, VersionVector.get_dot, hnode] at hd
      unfold Contained at hcont
      rw [hnode] at hcont
      rw [hfc] at hd
      have hle : s.vv.getC c ≤ max (s.vv.getC c) (ctx.getC c) := le_max_left _ _
      omega

theorem storeInv_foldl (ops : List Op) :
    ∀ s : KVStore, StoreInv s → StoreInv (List.foldl applyOp s ops) := by
  induction ops with
  | nil => intro s hs; exact hs
  | cons op rest ih =>
    intro s hs
    exact ih _ (storeInv_set s op.1 op.2.1 op.2.2.1 op.2.2.2 hs)

theorem storeInv_run (ops : List Op) : StoreInv (run ops) :=
  storeInv_foldl ops KVStore.new storeInv_new

theorem dedup_toFinset (l : List String) : l.dedup.toFinset = l.toFinset := by
  ext x
  simp [List.mem_dedup]

theorem keys_toFinset_merge (a b : VersionVector) :
    (a.merge b).keys.toFinset = a.keys.toFinset ∪ b.keys.toFinset := by
  rw [keys_merge]
  show ((a.keys ++ b.keys).dedup).toFinset = _
  rw [dedup_toFinset, List.toFinset_append]

/-! ## The claims -/

/-- Claim C1, counterexample to the claim as stated: the claim says a sibling
is dropped iff the new write's resulting context (the frontier) descends the
sibling's dot. In the scenario of `main`, B's write of 15 with the stale
empty context takes the slow path, the write's resulting context `kv2.vv`
(the frontier) does descend the existing sibling's dot `(A, 1)`, and yet
that sibling is kept (the sibling set still contains the value 10 with dot
`(A, 1)`). -/
theorem claim_C1_counterexample :
    VersionVector.descends ctx_b kv1.vv = false ∧
    kv2.vv = (kv1.vv.merge ctx_b).increment "B" ∧
    kv2.vv.descends_dot ⟨"A", 1⟩ = true ∧
    (⟨10, ⟨"A", 1⟩⟩ : Value) ∈ kv2.siblings "x" := by decide

/-- Claim C1 (amended): for every write that takes the slow path (the
supplied context does not descend the store's global context `vv`), with
frontier = `vv.merge(context).increment(actor)` and the new dot's counter
`frontier[actor] = max(vv[actor], context[actor]) + 1`, an existing sibling
`v` is dropped iff the new dot dot-descends `v`'s dot — the writing actor
equals `v`'s dot's actor and the new dot's counter is at least `v`'s dot's
counter — and all siblings not so dominated are kept and the new value is
appended. -/
theorem claim_C1 (s : KVStore) (client : String) (context : VersionVector)
    (key : String) (val : Int) (h : context.descends s.vv = false) :
    (s.set client context key val).siblings key =
      ((s.siblings key).filter fun v =>
        !(client == v.dot.node &&
          decide (v.dot.counter ≤ max (s.vv.getC client) (context.getC client) + 1)))
      ++ [⟨val, ⟨client, max (s.vv.getC client) (context.getC client) + 1⟩⟩] := by
  have hfc : ((s.vv.merge context).increment client).getC client =
      max (s.vv.getC client) (context.getC client) + 1 := frontier_getC_self _ _ _
  have hsib : (s.set client context key val).siblings key =
      ((s.siblings key).filter
        fun v => !((((s.vv.merge context).increment client).get_dot client).descends v.dot))
      ++ [⟨val, ((s.vv.merge context).increment client).get_dot client⟩] := by
    rw [set_slow s client context key val h, siblings_merge_siblings_self]
    rfl
  rw [hsib]
  simp only [VersionVector.get_dot, Dot.descends, hfc]

/-- Witness for claim C1 at the concrete slow-path write of the scenario:
B writes 15 into `kv1` with the stale empty context. -/
theorem claim_C1_witness :
    VersionVector.descends ctx_b kv1.vv = false ∧
    ((kv1.set "B" ctx_b "x" 15).siblings "x" =
      ((kv1.siblings "x").filter fun v =>
        !("B" == v.dot.node &&
          decide (v.dot.counter ≤ max (kv1.vv.getC "B") (ctx_b.getC "B") + 1)))
      ++ [⟨15, ⟨"B", max (kv1.vv.getC "B") (ctx_b.getC "B") + 1⟩⟩]) :=
  ⟨by decide, claim_C1 kv1 "B" ctx_b "x" 15 (by decide)⟩

/-- Claim C2: on the fast path (the supplied context descends the store's
global context `vv`), the write sets `vv` to `vv.increment(actor)`, the new
value's dot is `(actor, vv[actor] + 1)` (the incremented context's counter
for the actor), and the written key's sibling set is replaced entirely by
the single new value. -/
theorem claim_C2 (s : KVStore) (client : String) (context : VersionVector)
    (key : String) (val : Int) (h : context.descends s.vv = true) :
    (s.set client context key val).vv = s.vv.increment client ∧
    (s.set client context key val).siblings key =
      [⟨val, ⟨client, s.vv.getC client + 1⟩⟩] := by
  constructor
  · rw [set_fast s client context key val h]
  · rw [set_fast s client context key val h]
    simp [KVStore.siblings, getS_insertS_self, VersionVector.get_dot,
      getC_increment_self]

/-- Witness for claim C2 at the concrete fast-path write of the scenario:
A writes 10 into the empty store with the empty context. -/
theorem claim_C2_witness :
    VersionVector.descends VersionVector.new KVStore.new.vv = true ∧
    ((KVStore.new.set "A" VersionVector.new "x" 10).vv
        = KVStore.new.vv.increment "A" ∧
      (KVStore.new.set "A" VersionVector.new "x" 10).siblings "x" =
        [⟨10, ⟨"A", KVStore.new.vv.getC "A" + 1⟩⟩]) :=
  ⟨by decide, claim_C2 KVStore.new "A" VersionVector.new "x" 10 (by decide)⟩

/-- Claim C3: in the literal end-to-end scenario of `main` — A writes
`("A", {}, "x", 10)`, B writes `("B", {}, "x", 15)`, C reads "x" and writes
`("C", ctx_c, "x", 20)`, then B writes again with its stale empty context —
the sibling count for key "x" is 2 after B's first write, 1 after C's write
and 2 after B's second write. -/
theorem claim_C3 :
    (kv2.siblings "x").length = 2 ∧ (kv3.siblings "x").length = 1 ∧
    (kv4.siblings "x").length = 2 := by decide

/-- Claim C4: merge is commutative, associative and idempotent up to HashMap
equality (same key set, same counter per actor), and the merged context's
counter for every actor is the maximum of the two inputs' counters for that
actor (absent actors counting as 0). -/
theorem claim_C4 (A B C : VersionVector) :
    vvEq (A.merge B) (B.merge A) ∧
    vvEq ((A.merge B).merge C) (A.merge (B.merge C)) ∧
    vvEq (A.merge A) A ∧
    ∀ k, (A.merge B).getC k = max (A.getC k) (B.getC k) := by
  refine ⟨⟨?_, ?_⟩, ⟨?_, ?_⟩, ⟨?_, ?_⟩, fun k => getC_merge A B k⟩
  · rw [keys_toFinset_merge, keys_toFinset_merge, Finset.union_comm]
  · intro k
    rw [getC_merge, getC_merge, max_comm]
  · rw [keys_toFinset_merge, keys_toFinset_merge, keys_toFinset_merge,
      keys_toFinset_merge, Finset.union_assoc]
  · intro k
    simp only [getC_merge]
    rw [max_assoc]
  · rw [keys_toFinset_merge, Finset.union_self]
  · intro k
    rw [getC_merge, max_self]

/-- Claim C5: `descends(A, B)` returns true iff for every actor `k`, A's
counter for `k` (0 if absent) is at least B's counter for `k` (0 if absent);
in particular `descends(A, A)` is true for every context. -/
theorem claim_C5 (A B : VersionVector) :
    (A.descends B = true ↔ ∀ k, B.getC k ≤ A.getC k) ∧ A.descends A = true :=
  ⟨descends_iff, descends_refl A⟩

/-- Claim C6: `happened_before(A, B)` returns true iff every actor's counter
in A is at most its counter in B and at least one actor's counter is
strictly smaller; consequently `happened_before(A, A)` is false for every
context. -/
theorem claim_C6 (A B : VersionVector) :
    (VectorClock.happened_before A B = true ↔
      ((∀ k, A.getC k ≤ B.getC k) ∧ ∃ k, A.getC k < B.getC k)) ∧
    VectorClock.happened_before A A = false :=
  ⟨happened_before_iff, happened_before_irrefl A⟩

/-- Claim C7: a single write (either path) never lowers any counter of the
store's global context: for every actor, the counter after the write is at
least the counter before it. -/
theorem claim_C7 (s : KVStore) (client : String) (context : VersionVector)
    (key : String) (val : Int) (k : String) :
    s.vv.getC k ≤ (s.set client context key val).vv.getC k :=
  set_vv_getC_le s client context key val k

/-- Claim C8: in every store state reachable from the empty store by any
sequence of writes, each key's sibling set is an antichain under dot
domination: for no two stored values does one value's dot dominate the
other's. -/
theorem claim_C8 (ops : List Op) (key : String) :
    ((run ops).siblings key).Pairwise
      fun v w => v.dot.descends w.dot = false ∧ w.dot.descends v.dot = false := by
  have hp := (storeInv_run ops key).2
  refine hp.imp fun {v w} hne => ?_
  have h1 : (v.dot.node == w.dot.node) = false := beq_eq_false_iff_ne.mpr hne
  have h2 : (w.dot.node == v.dot.node) = false := beq_eq_false_iff_ne.mpr (Ne.symm hne)
  exact ⟨by simp [Dot.descends, h1], by simp [Dot.descends, h2]⟩

/-- Claim C9: when two contexts hold the same counter for every actor, the
strict comparator's `concurrent` (neither strictly happened before the
other) returns true, while the descends-based `concurrent` returns false. -/
theorem claim_C9 (A B : VersionVector) (h : ∀ k, A.getC k = B.getC k) :
    VectorClock.concurrent A B = true ∧ VersionVector.concurrent A B = false := by
  have hAB : VectorClock.happened_before A B = false := by
    cases hb : VectorClock.happened_before A B with
    | false => rfl
    | true =>
      obtain ⟨_, k, hk⟩ := happened_before_iff.mp hb
      rw [h k] at hk
      exact absurd hk (lt_irrefl _)
  have hBA : VectorClock.happened_before B A = false := by
    cases hb : VectorClock.happened_before B A with
    | false => rfl
    | true =>
      obtain ⟨_, k, hk⟩ := happened_before_iff.mp hb
      rw [h k] at hk
      exact absurd hk (lt_irrefl _)
  have hdesc : A.descends B = true := descends_iff.mpr fun k => le_of_eq (h k).symm
  constructor
  · simp [VectorClock.concurrent, hAB, hBA]
  · simp [VersionVector.concurrent, hdesc]

/-- Witness for claim C9 at two structurally equal concrete contexts. -/
theorem claim_C9_witness :
    VectorClock.concurrent ⟨[("A", 1)]⟩ ⟨[("A", 1)]⟩ = true ∧
    VersionVector.concurrent ⟨[("A", 1)]⟩ ⟨[("A", 1)]⟩ = false :=
  claim_C9 ⟨[("A", 1)]⟩ ⟨[("A", 1)]⟩ fun _ => rfl

/-- Claim C10: for every context `V` and actor `n`, the dot
`(n, V[n])` produced by `get_dot` satisfies both containment checks at once:
`V.descends_dot` of it and its `descends_vv` of `V`, since `descends_vv`
compares with >= rather than strictly. -/
theorem claim_C10 (V : VersionVector) (n : String) :
    V.descends_dot (V.get_dot n) = true ∧ (V.get_dot n).descends_vv V = true := by
  constructor
  · simp [VersionVector.descends_dot, VersionVector.get_dot]
  · simp [Dot.descends_vv, VersionVector.get_dot]
